import Mathlib

/-!
Verification development for the Tempulse stablecoin indexer.

The repository ships the durable schema (migrations/001_init.sql), the web
dashboard (web/src), and the server-side fetch layer. The indexing engine
itself (bin/fin and the crates it uses) is declared by the workspace but its
Rust sources are not part of this tree, so the engine is modelled here from
the specification text (each such definition carries a doc comment starting
with the words Modelled from the spec). The schema, the fetch layer and the
dashboard computations are embedded directly from the sources.
-/

/-! ## Section 1: ledger / indexing engine model -/

/-- Modelled from the spec: the kind of a decoded domain event
(transfer, mint or burn); the engine sources are not in the tree.
Matches the event_type column of the transfers table. -/
inductive EventKind : Type where
  | transfer : EventKind
  | mint : EventKind
  | burn : EventKind
deriving DecidableEq

/-- Modelled from the spec: a decoded TransferEvent as in section 3 of the
spec and the transfers table of migrations/001_init.sql. The amount is an
arbitrary-precision non-negative integer. -/
structure TransferEvent : Type where
  tokenAddress : String
  fromAddress : String
  toAddress : String
  amount : Nat
  memo : Option String
  eventType : EventKind
  transactionHash : String
  blockNumber : Nat
  logIndex : Nat
deriving DecidableEq

/-- Modelled from the spec: a BlockRecord as in section 3 of the spec and
the indexed_blocks table of migrations/001_init.sql. -/
structure BlockRecord : Type where
  number : Nat
  hash : String
  parentHash : String
  timestamp : Nat
deriving DecidableEq

/-- Modelled from the spec: an hourly rollup bucket as in the hourly_stats
table. The sender and receiver address multisets are kept materialized in
the model; the stored cardinalities are derived from them. -/
structure HourlyStat : Type where
  transferCount : Nat
  transferVolume : Nat
  mintCount : Nat
  mintVolume : Nat
  burnCount : Nat
  burnVolume : Nat
  senders : List String
  receivers : List String
deriving DecidableEq

def emptyStat : HourlyStat :=
  { transferCount := 0, transferVolume := 0, mintCount := 0, mintVolume := 0
    burnCount := 0, burnVolume := 0, senders := [], receivers := [] }

/-- An account key: (address, token_address), the primary key of accounts. -/
abbrev AcctKey := String × String

/-- Association list lookup with a default value. -/
def alookup {κ ν : Type} [DecidableEq κ] (d : ν) : List (κ × ν) → κ → ν
  | [], _ => d
  | (k0, v0) :: rest, k => if k0 = k then v0 else alookup d rest k

/-- Association list update, inserting at the end when the key is new. -/
def aset {κ ν : Type} [DecidableEq κ] : List (κ × ν) → κ → ν → List (κ × ν)
  | [], k, v => [(k, v)]
  | (k0, v0) :: rest, k, v =>
      if k0 = k then (k, v) :: rest else (k0, v0) :: aset rest k v

abbrev Balances := List (AcctKey × Int)
abbrev Hourly := List ((String × Nat) × HourlyStat)

def getBal (b : Balances) (k : AcctKey) : Int := alookup 0 b k
def setBal (b : Balances) (k : AcctKey) (v : Int) : Balances := aset b k v
def getStat (h : Hourly) (k : String × Nat) : HourlyStat := alookup emptyStat h k
def setStat (h : Hourly) (k : String × Nat) (v : HourlyStat) : Hourly := aset h k v

/-- Modelled from the spec: the durable store of the engine, one field per
table of migrations/001_init.sql that the claims touch (indexed_blocks,
transfers, accounts, hourly_stats, and the last_indexed_block row of
indexer_state as the checkpoint). -/
structure Store : Type where
  blocks : List BlockRecord
  transfers : List TransferEvent
  balances : Balances
  hourly : Hourly
  checkpoint : Nat
deriving DecidableEq

/-- The store right after the migration: empty tables and a checkpoint
seeded with last_indexed_block = 0. -/
def initStore : Store :=
  { blocks := [], transfers := [], balances := [], hourly := [], checkpoint := 0 }

/-- Modelled from the spec: the signed balance delta of one event on one
(address, token) pair. A mint credits the receiver only, a burn debits the
sender only, a transfer debits the sender and credits the receiver. -/
def delta (e : TransferEvent) (k : AcctKey) : Int :=
  (if k = (e.toAddress, e.tokenAddress) ∧ e.eventType ≠ EventKind.burn
    then (e.amount : Int) else 0)
  - (if k = (e.fromAddress, e.tokenAddress) ∧ e.eventType ≠ EventKind.mint
    then (e.amount : Int) else 0)

/-- The signed sum of the deltas of a list of events on one account key. -/
def signedSum (ts : List TransferEvent) (k : AcctKey) : Int :=
  (ts.map (fun e => delta e k)).sum

/-- Does the list already hold an event with this idempotency key
(transaction_hash, log_index)? Mirrors the unique constraint of transfers. -/
def hasKey : List TransferEvent → TransferEvent → Bool
  | [], _ => false
  | t :: rest, e =>
      (decide (t.transactionHash = e.transactionHash)
        && decide (t.logIndex = e.logIndex)) || hasKey rest e

/-- Look a block up by number. -/
def lookupBlock : List BlockRecord → Nat → Option BlockRecord
  | [], _ => none
  | b :: rest, n => if b.number = n then some b else lookupBlock rest n

/-- The timestamp of the stored block with the given number (0 if absent). -/
def blockTs (bs : List BlockRecord) (n : Nat) : Nat :=
  match lookupBlock bs n with
  | some b => b.timestamp
  | none => 0

/-- Modelled from the spec: fold one event into an hourly bucket, bumping
the per-kind count and volume and recording the sender and receiver. -/
def bumpStat (st : HourlyStat) (e : TransferEvent) : HourlyStat :=
  let st1 :=
    match e.eventType with
    | EventKind.transfer =>
        { st with transferCount := st.transferCount + 1
                  transferVolume := st.transferVolume + e.amount }
    | EventKind.mint =>
        { st with mintCount := st.mintCount + 1
                  mintVolume := st.mintVolume + e.amount }
    | EventKind.burn =>
        { st with burnCount := st.burnCount + 1
                  burnVolume := st.burnVolume + e.amount }
  { st1 with senders := st1.senders ++ [e.fromAddress]
             receivers := st1.receivers ++ [e.toAddress] }

/-- The hourly bucket key of an event given a block-timestamp function. -/
def hourKey (tsOf : Nat → Nat) (e : TransferEvent) : String × Nat :=
  (e.tokenAddress, tsOf e.blockNumber / 3600)

def updHourly (h : Hourly) (k : String × Nat) (e : TransferEvent) : Hourly :=
  setStat h k (bumpStat (getStat h k) e)

/-- The hourly rollups recomputed from scratch by replaying a transfer
list, as section 4.5 of the spec requires to be possible. -/
def hourlyOf (tsOf : Nat → Nat) (ts : List TransferEvent) : Hourly :=
  ts.foldl (fun h e => updHourly h (hourKey tsOf e) e) []

inductive LedgerError : Type where
  | validation : LedgerError
  | negativeBalance : LedgerError
deriving DecidableEq

/-- Modelled from the spec: apply one decoded event to the store. An event
whose (transaction_hash, log_index) already exists is a no-op; a debit that
would drive a balance negative is a data-integrity error; otherwise the
transfer row is inserted and the balance and hourly bucket updated. -/
def applyEvent (tsOf : Nat → Nat) (u : Store) (e : TransferEvent) :
    Except LedgerError Store :=
  if hasKey u.transfers e then Except.ok u
  else
    let hk := hourKey tsOf e
    let fk : AcctKey := (e.fromAddress, e.tokenAddress)
    let tk : AcctKey := (e.toAddress, e.tokenAddress)
    match e.eventType with
    | EventKind.mint =>
        Except.ok { u with
          transfers := u.transfers ++ [e]
          balances := setBal u.balances tk (getBal u.balances tk + e.amount)
          hourly := updHourly u.hourly hk e }
    | EventKind.burn =>
        if (e.amount : Int) ≤ getBal u.balances fk then
          Except.ok { u with
            transfers := u.transfers ++ [e]
            balances := setBal u.balances fk (getBal u.balances fk - e.amount)
            hourly := updHourly u.hourly hk e }
        else Except.error LedgerError.negativeBalance
    | EventKind.transfer =>
        if (e.amount : Int) ≤ getBal u.balances fk then
          let b1 := setBal u.balances fk (getBal u.balances fk - e.amount)
          Except.ok { u with
            transfers := u.transfers ++ [e]
            balances := setBal b1 tk (getBal b1 tk + e.amount)
            hourly := updHourly u.hourly hk e }
        else Except.error LedgerError.negativeBalance

/-- Apply a batch of events in order, stopping at the first error. -/
def applyEvents (tsOf : Nat → Nat) (u : Store) :
    List TransferEvent → Except LedgerError Store
  | [] => Except.ok u
  | e :: rest =>
      match applyEvent tsOf u e with
      | Except.ok u2 => applyEvents tsOf u2 rest
      | Except.error err => Except.error err

/-- Modelled from the spec: validate a fetched header range, checking the
consecutive numbering from the given start and every parent-hash link,
including the link of the first header to the locally stored predecessor
hash when one exists. -/
def chainOk (prev : Option String) (start : Nat) : List BlockRecord → Bool
  | [] => true
  | b :: rest =>
      decide (b.number = start)
      && (match prev with
          | some h => decide (b.parentHash = h)
          | none => true)
      && chainOk (some b.hash) (start + 1) rest

/-- Are the events ordered by block number (log order within a batch)? -/
def sortedB : List TransferEvent → Bool
  | [] => true
  | [_] => true
  | a :: b :: rest =>
      decide (a.blockNumber ≤ b.blockNumber) && sortedB (b :: rest)

/-- Are all events inside the block range and ordered? -/
def eventsOk (lo hi : Nat) (es : List TransferEvent) : Bool :=
  es.all (fun e => decide (lo ≤ e.blockNumber) && decide (e.blockNumber ≤ hi))
  && sortedB es

/-- Modelled from the spec: the Ledger Writer apply operation of section
4.4. A batch of headers plus decoded events is committed as one unit:
either every block, transfer, balance delta and the advanced checkpoint
land in the result, or an error is returned and the caller keeps the store
it had. An empty range is a normal no-op. -/
def applyBatch (s : Store) (bs : List BlockRecord) (es : List TransferEvent) :
    Except LedgerError Store :=
  match bs with
  | [] => Except.ok s
  | _ =>
    let start := s.checkpoint + 1
    let fin := s.checkpoint + bs.length
    if chainOk ((lookupBlock s.blocks s.checkpoint).map (fun b => b.hash))
          start bs
        && eventsOk start fin es then
      let blocks2 := s.blocks ++ bs
      match applyEvents (blockTs blocks2) { s with blocks := blocks2 } es with
      | Except.ok s2 => Except.ok { s2 with checkpoint := fin }
      | Except.error err => Except.error err
    else Except.error LedgerError.validation

/-- Modelled from the spec: walk backward from block n, comparing the
locally stored hash with the freshly fetched remote hash, until they agree
(the fork point); give up when the bounded lookback fuel runs out. -/
def findForkAux (s : Store) (remote : Nat → String) :
    Nat → Nat → Option Nat
  | _, 0 => none
  | n, fuel + 1 =>
      match lookupBlock s.blocks n with
      | some b =>
          if b.hash = remote n then some n
          else if n = 0 then none else findForkAux s remote (n - 1) fuel
      | none => if n = 0 then none else findForkAux s remote (n - 1) fuel

/-- Modelled from the spec: the reorg fork-point search of section 4.3,
starting from the checkpoint with a bounded lookback window. -/
def findFork (s : Store) (remote : Nat → String) (lookback : Nat) : Option Nat :=
  findForkAux s remote s.checkpoint (lookback + 1)

/-- Modelled from the spec: revert the balance effect of one event
(the exact inverse of the applyEvent balance update). -/
def revertBal (b : Balances) (e : TransferEvent) : Balances :=
  let fk : AcctKey := (e.fromAddress, e.tokenAddress)
  let tk : AcctKey := (e.toAddress, e.tokenAddress)
  match e.eventType with
  | EventKind.mint => setBal b tk (getBal b tk - e.amount)
  | EventKind.burn => setBal b fk (getBal b fk + e.amount)
  | EventKind.transfer =>
      let b1 := setBal b fk (getBal b fk + e.amount)
      setBal b1 tk (getBal b1 tk - e.amount)

/-- Modelled from the spec: the atomic reorg rollback of section 4.3.
Blocks and transfers strictly after the fork point are deleted, their
balance effects reverted, the hourly rollups recomputed from the surviving
ledger, and the checkpoint rewound to the fork point. -/
def rollbackTo (s : Store) (f : Nat) : Store :=
  let keptB := s.blocks.filter (fun b => decide (b.number ≤ f))
  let keptT := s.transfers.filter (fun t => decide (t.blockNumber ≤ f))
  let removed := s.transfers.filter (fun t => decide (f < t.blockNumber))
  { blocks := keptB
    transfers := keptT
    balances := removed.foldl revertBal s.balances
    hourly := hourlyOf (blockTs keptB) keptT
    checkpoint := f }

/-- An engine step: either hand a validated range to the Ledger Writer, or
run reorg reconciliation against the Chain Source. -/
inductive EAction : Type where
  | applyBatch (bs : List BlockRecord) (es : List TransferEvent) : EAction
  | reconcile (remote : Nat → String) (lookback : Nat) : EAction

/-- Modelled from the spec: one cycle of the indexing loop. A failed batch
apply leaves the store exactly as it was; a reconciliation with no fork
point inside the lookback window is fatal and commits nothing. -/
def step (s : Store) (a : EAction) : Store :=
  match a with
  | EAction.applyBatch bs es =>
      match applyBatch s bs es with
      | Except.ok s2 => s2
      | Except.error _ => s
  | EAction.reconcile remote lb =>
      match findFork s remote lb with
      | some f => rollbackTo s f
      | none => s

/-- The stores reachable from the freshly migrated state by engine steps. -/
inductive Reachable : Store → Prop where
  | init : Reachable initStore
  | next {s : Store} : Reachable s → (a : EAction) → Reachable (step s a)

/-- Modelled from the spec: a transfer history in which every debit was
covered by the balance accumulated so far (starting from the given balance
assignment). This is the record that every committed debit passed the
negative-balance guard. -/
def GuardedList (bal : AcctKey → Int) : List TransferEvent → Prop
  | [] => True
  | e :: rest =>
      (e.eventType ≠ EventKind.mint →
        (e.amount : Int) ≤ bal (e.fromAddress, e.tokenAddress))
      ∧ GuardedList (fun k => bal k + delta e k) rest

/-- The invariant bundle maintained by every reachable store: unique
idempotency keys, balances equal to the signed replay of the transfer
history, guarded debits, contiguous and duplicate-free block history below
the checkpoint, block-ordered transfers below the checkpoint whose blocks
are stored, and hourly rollups derivable from the ledger. -/
structure StoreInv (s : Store) : Prop where
  uniqKeys : List.Pairwise
    (fun a b => ¬ (a.transactionHash = b.transactionHash ∧ a.logIndex = b.logIndex))
    s.transfers
  balInv : ∀ k, getBal s.balances k = signedSum s.transfers k
  guarded : GuardedList (fun _ => 0) s.transfers
  contig : ∀ b ∈ s.blocks, ∀ c ∈ s.blocks,
    b.number = c.number + 1 → b.parentHash = c.hash
  blockNodup : List.Pairwise (fun a b => a.number ≠ b.number) s.blocks
  blocksLe : ∀ b ∈ s.blocks, b.number ≤ s.checkpoint
  transLe : ∀ t ∈ s.transfers, t.blockNumber ≤ s.checkpoint
  transSorted : List.Pairwise (fun a b => a.blockNumber ≤ b.blockNumber) s.transfers
  transStored : ∀ t ∈ s.transfers, (lookupBlock s.blocks t.blockNumber).isSome
  hourlyInv : s.hourly = hourlyOf (blockTs s.blocks) s.transfers

/-- The part of the invariant maintained through the event fold inside one
batch apply, relative to a fixed timestamp function and an upper block
bound (the end of the range being applied). The checkpoint is advanced
only after the fold, so it is not constrained here. -/
structure MidInv (tsOf : Nat → Nat) (hi : Nat) (u : Store) : Prop where
  uniqKeys : List.Pairwise
    (fun a b => ¬ (a.transactionHash = b.transactionHash ∧ a.logIndex = b.logIndex))
    u.transfers
  balInv : ∀ k, getBal u.balances k = signedSum u.transfers k
  guarded : GuardedList (fun _ => 0) u.transfers
  transSorted : List.Pairwise (fun a b => a.blockNumber ≤ b.blockNumber) u.transfers
  transLe : ∀ t ∈ u.transfers, t.blockNumber ≤ hi
  transStored : ∀ t ∈ u.transfers, (lookupBlock u.blocks t.blockNumber).isSome
  hourlyInv : u.hourly = hourlyOf tsOf u.transfers

/-! ## Section 2: durable schema layout (from migrations/001_init.sql) -/

/-- A table of the relational schema: name, columns in declaration order,
primary key columns, and unique constraints. -/
structure TableDef : Type where
  name : String
  columns : List String
  primaryKey : List String
  uniques : List (List String)
deriving DecidableEq

/-- The indexed_blocks table of migrations/001_init.sql. -/
def indexed_blocks : TableDef :=
  { name := "indexed_blocks"
    columns := ["block_number", "block_hash", "parent_hash", "timestamp"]
    primaryKey := ["block_number"]
    uniques := [] }

/-- The tokens table of migrations/001_init.sql. -/
def tokens : TableDef :=
  { name := "tokens"
    columns := ["address", "name", "symbol", "decimals", "currency",
                "total_supply", "created_at_block", "created_at_tx"]
    primaryKey := ["address"]
    uniques := [] }

/-- The transfers table of migrations/001_init.sql. -/
def transfers : TableDef :=
  { name := "transfers"
    columns := ["id", "token_address", "from_address", "to_address", "amount",
                "memo", "event_type", "transaction_hash", "block_number",
                "log_index", "created_at"]
    primaryKey := ["id"]
    uniques := [["transaction_hash", "log_index"]] }

/-- The accounts table of migrations/001_init.sql. -/
def accounts : TableDef :=
  { name := "accounts"
    columns := ["address", "token_address", "balance", "updated_at_block"]
    primaryKey := ["address", "token_address"]
    uniques := [] }

/-- The hourly_stats table of migrations/001_init.sql. -/
def hourly_stats : TableDef :=
  { name := "hourly_stats"
    columns := ["token_address", "hour", "transfer_count", "transfer_volume",
                "mint_count", "mint_volume", "burn_count", "burn_volume",
                "unique_senders", "unique_receivers"]
    primaryKey := ["token_address", "hour"]
    uniques := [] }

/-- The indexer_state key/value table of migrations/001_init.sql. -/
def indexer_state : TableDef :=
  { name := "indexer_state"
    columns := ["key", "value"]
    primaryKey := ["key"]
    uniques := [] }

/-- The tables created by migrations/001_init.sql in declaration order. -/
def initSchema : List TableDef :=
  [indexed_blocks, tokens, transfers, accounts, hourly_stats, indexer_state]

/-- The seed row inserted by migrations/001_init.sql into indexer_state. -/
def indexerStateSeed : List (String × String) :=
  [("last_indexed_block", "0")]

/-! ## Section 3: dashboard amount arithmetic (from web/src

The dashboard pages convert decimal-string amounts with the JavaScript
Number function and then add them with native floating point; see the
transferVolume reduce in the token detail page and the dominance maps in
web/src/app/page.tsx. The model below gives the exact semantics of that
conversion for non-negative integer inputs below 2 to the 128: round to
nearest with a 53-bit significand, ties to even. -/

/-- Number of binary digits of n, with explicit fuel (128 suffices for
every value that appears in amounts). -/
def bitLenAux : Nat → Nat → Nat
  | 0, _ => 0
  | fuel + 1, n => if n = 0 then 0 else bitLenAux fuel (n / 2) + 1

def bitLen (n : Nat) : Nat := bitLenAux 128 n

/-- The value of the IEEE-754 binary64 double nearest to the natural number
n (ties to even), for n below 2 to the 128. This is what the JavaScript
Number conversion used by the dashboard produces on integer inputs. -/
def float64OfNat (n : Nat) : Nat :=
  if n ≤ 2 ^ 53 then n
  else
    let b := bitLen n
    let shift := b - 53
    let q := n / 2 ^ shift
    let r := n % 2 ^ shift
    let half := 2 ^ (shift - 1)
    let q2 := if half < r ∨ (r = half ∧ q % 2 = 1) then q + 1 else q
    q2 * 2 ^ shift

/-- Exact value of a decimal digit string (the amount encoding used by the
transfers table and the REST layer). -/
def decToNat (s : String) : Nat :=
  s.toList.foldl (fun a c => a * 10 + (c.toNat - 48)) 0

/-- The JavaScript Number conversion of a decimal amount string, as used by
the dashboard pages in web/src. -/
def jsNumberOfDecimal (s : String) : Nat := float64OfNat (decToNat s)

/-- The transferVolume computation of the token detail page: a reduce that
adds Number conversions of the amount strings with floating point, each
intermediate sum rounded to binary64. -/
def jsTransferVolume (amounts : List String) : Nat :=
  amounts.foldl (fun sum a => float64OfNat (sum + jsNumberOfDecimal a)) 0

/-- The same sum computed with exact arbitrary-precision arithmetic. -/
def exactVolume (amounts : List String) : Nat :=
  amounts.foldl (fun sum a => sum + decToNat a) 0

/-! ## Section 4: server-side data fetchers (from the fetch module)

The unnamed source file that defines fetchTokens and friends wraps every
request in a try/catch that returns null on failure. The outcome of the
underlying apiFetch call (either data or a thrown error) is passed in as an
Except value; the record types carry the fields used by the pages. -/

/-- A token row as served by the REST layer. -/
structure ApiToken : Type where
  address : String
  name : String
  symbol : String
  decimals : Nat
  currency : String
  total_supply : String
  created_at_block : Nat
  created_at_tx : String
deriving DecidableEq

/-- A transfer row as served by the REST layer. -/
structure ApiTransfer : Type where
  id : Nat
  token_address : String
  from_address : String
  to_address : String
  amount : String
  memo : Option String
  event_type : String
  transaction_hash : String
  block_number : Nat
  log_index : Nat
  created_at : String
deriving DecidableEq

/-- An account (holder) row as served by the REST layer. -/
structure ApiAccount : Type where
  address : String
  token_address : String
  balance : String
  updated_at_block : Nat
deriving DecidableEq

/-- The stats/overview response used by the dashboard. -/
structure OverviewResponse : Type where
  total_value_transferred : String
  total_transfers : Nat
  active_tokens : Nat
deriving DecidableEq

/-- One entry of a daily or monthly volume time series. -/
structure TimeSeriesEntry : Type where
  period : String
  volume : String
  count : Nat
deriving DecidableEq

/-- One token entry of the stats/volume response. -/
structure VolumeTokenEntry : Type where
  token_address : String
  symbol : String
  total_volume : String
deriving DecidableEq

/-- The stats/volume response used by the dashboard. -/
structure VolumeResponse : Type where
  tokens : List VolumeTokenEntry
deriving DecidableEq

/-- The try/catch wrapper every fetcher uses: a thrown error becomes null,
a successful apiFetch result is passed through. -/
def fetchResult {α : Type} (r : Except String α) : Option α :=
  match r with
  | Except.ok v => some v
  | Except.error _ => none

def fetchTokens (r : Except String (List ApiToken)) : Option (List ApiToken) :=
  fetchResult r

def fetchToken (r : Except String ApiToken) : Option ApiToken :=
  fetchResult r

def fetchTokenHolders (r : Except String (List ApiAccount)) :
    Option (List ApiAccount) :=
  fetchResult r

def fetchTokenTransfers (r : Except String (List ApiTransfer)) :
    Option (List ApiTransfer) :=
  fetchResult r

def fetchVolume (r : Except String VolumeResponse) : Option VolumeResponse :=
  fetchResult r

def fetchOverview (r : Except String OverviewResponse) :
    Option OverviewResponse :=
  fetchResult r

def fetchRecentActivity (r : Except String (List ApiTransfer)) :
    Option (List ApiTransfer) :=
  fetchResult r

def fetchDailyVolume (r : Except String (List TimeSeriesEntry)) :
    Option (List TimeSeriesEntry) :=
  fetchResult r

def fetchMonthlyVolume (r : Except String (List TimeSeriesEntry)) :
    Option (List TimeSeriesEntry) :=
  fetchResult r

def fetchTokenDailyVolume (r : Except String (List TimeSeriesEntry)) :
    Option (List TimeSeriesEntry) :=
  fetchResult r

/-- The record assembled by fetchDashboardData. -/
structure DashboardData : Type where
  tokens : List ApiToken
  overview : OverviewResponse
  activity : List ApiTransfer
  daily : List TimeSeriesEntry
  monthly : List TimeSeriesEntry
  volume : VolumeResponse
deriving DecidableEq

/-- The composite dashboard fetcher: null if any constituent fetch came
back null, otherwise the record of all six results. -/
def fetchDashboardData
    (rTokens : Except String (List ApiToken))
    (rOverview : Except String OverviewResponse)
    (rActivity : Except String (List ApiTransfer))
    (rDaily : Except String (List TimeSeriesEntry))
    (rMonthly : Except String (List TimeSeriesEntry))
    (rVolume : Except String VolumeResponse) : Option DashboardData :=
  match fetchTokens rTokens, fetchOverview rOverview,
        fetchRecentActivity rActivity, fetchDailyVolume rDaily,
        fetchMonthlyVolume rMonthly, fetchVolume rVolume with
  | some t, some o, some a, some d, some m, some v =>
      some { tokens := t, overview := o, activity := a
             daily := d, monthly := m, volume := v }
  | _, _, _, _, _, _ => none

/-- The record assembled by fetchTokenDetailData. -/
structure TokenDetailData : Type where
  token : ApiToken
  holders : List ApiAccount
  transfers : List ApiTransfer
  dailyVolume : List TimeSeriesEntry
deriving DecidableEq

/-- The composite token-detail fetcher: null if any constituent fetch came
back null, otherwise the record of all four results. -/
def fetchTokenDetailData
    (rToken : Except String ApiToken)
    (rHolders : Except String (List ApiAccount))
    (rTransfers : Except String (List ApiTransfer))
    (rDaily : Except String (List TimeSeriesEntry)) : Option TokenDetailData :=
  match fetchToken rToken, fetchTokenHolders rHolders,
        fetchTokenTransfers rTransfers, fetchTokenDailyVolume rDaily with
  | some t, some h, some tr, some d =>
      some { token := t, holders := h, transfers := tr, dailyVolume := d }
  | _, _, _, _ => none

/-! ## Section 5: a concrete scenario

Local chain of blocks 1..10 with a mint, a transfer and a burn, followed by
a Chain Source that reports different hashes for blocks 8..10 (the reorg
scenario of section 8 of the spec). -/

def demoBlocks1 : List BlockRecord :=
  [{ number := 1, hash := "h1", parentHash := "h0", timestamp := 3600 },
   { number := 2, hash := "h2", parentHash := "h1", timestamp := 7200 },
   { number := 3, hash := "h3", parentHash := "h2", timestamp := 10800 },
   { number := 4, hash := "h4", parentHash := "h3", timestamp := 14400 },
   { number := 5, hash := "h5", parentHash := "h4", timestamp := 18000 },
   { number := 6, hash := "h6", parentHash := "h5", timestamp := 21600 },
   { number := 7, hash := "h7", parentHash := "h6", timestamp := 25200 }]

def demoBlocks2 : List BlockRecord :=
  [{ number := 8, hash := "h8", parentHash := "h7", timestamp := 28800 },
   { number := 9, hash := "h9", parentHash := "h8", timestamp := 32400 },
   { number := 10, hash := "h10", parentHash := "h9", timestamp := 36000 }]

def demoMint : TransferEvent :=
  { tokenAddress := "tokA", fromAddress := "0x0", toAddress := "alice"
    amount := 100, memo := none, eventType := EventKind.mint
    transactionHash := "t1", blockNumber := 5, logIndex := 0 }

def demoTransfer : TransferEvent :=
  { tokenAddress := "tokA", fromAddress := "alice", toAddress := "bob"
    amount := 30, memo := none, eventType := EventKind.transfer
    transactionHash := "t2", blockNumber := 8, logIndex := 0 }

def demoBurn : TransferEvent :=
  { tokenAddress := "tokA", fromAddress := "alice", toAddress := "0x0"
    amount := 10, memo := none, eventType := EventKind.burn
    transactionHash := "t3", blockNumber := 9, logIndex := 1 }

def demoStore1 : Store :=
  step initStore (EAction.applyBatch demoBlocks1 [demoMint])

def demoStore : Store :=
  step demoStore1 (EAction.applyBatch demoBlocks2 [demoTransfer, demoBurn])

/-- The Chain Source after the reorg: blocks 8..10 now carry different
hashes, blocks up to 7 are unchanged. -/
def demoRemote (n : Nat) : String :=
  if n = 10 then "x10" else if n = 9 then "x9" else if n = 8 then "x8"
  else if n = 7 then "h7" else if n = 6 then "h6" else if n = 5 then "h5"
  else if n = 4 then "h4" else if n = 3 then "h3" else if n = 2 then "h2"
  else if n = 1 then "h1" else ""

/-! ## Helper lemmas -/

theorem alookup_aset {κ ν : Type} [DecidableEq κ] (d : ν) (l : List (κ × ν))
    (k k2 : κ) (v : ν) :
    alookup d (aset l k v) k2 = if k = k2 then v else alookup d l k2 := by
  induction l with
  | nil => simp [aset, alookup]
  | cons p rest ih =>
      obtain ⟨k0, v0⟩ := p
      by_cases h0 : k0 = k
      · subst h0
        by_cases h2 : k0 = k2 <;> simp [aset, alookup, h2]
      · by_cases h2 : k0 = k2
        · subst h2
          have : ¬ k = k0 := fun h => h0 h.symm
          simp [aset, alookup, h0, this]
        · simp [aset, alookup, h0, h2, ih]

theorem getBal_setBal (b : Balances) (k k2 : AcctKey) (v : Int) :
    getBal (setBal b k v) k2 = if k = k2 then v else getBal b k2 :=
  alookup_aset 0 b k k2 v

theorem signedSum_nil (k : AcctKey) : signedSum [] k = 0 := rfl

theorem signedSum_cons (e : TransferEvent) (ts : List TransferEvent) (k : AcctKey) :
    signedSum (e :: ts) k = delta e k + signedSum ts k := by
  simp [signedSum]

theorem signedSum_append (ts us : List TransferEvent) (k : AcctKey) :
    signedSum (ts ++ us) k = signedSum ts k + signedSum us k := by
  simp [signedSum]

theorem signedSum_split (ts : List TransferEvent) (f : Nat) (k : AcctKey) :
    signedSum ts k =
      signedSum (ts.filter (fun t => decide (t.blockNumber ≤ f))) k
      + signedSum (ts.filter (fun t => decide (f < t.blockNumber))) k := by
  induction ts with
  | nil => simp [signedSum]
  | cons t rest ih =>
      by_cases h : t.blockNumber ≤ f
      · have h2 : ¬ f < t.blockNumber := by omega
        simp [List.filter_cons, h, h2, signedSum_cons, ih]
        ring
      · have h2 : f < t.blockNumber := by omega
        simp [List.filter_cons, h, h2, signedSum_cons, ih]
        ring

theorem hasKey_false_iff (ts : List TransferEvent) (e : TransferEvent) :
    hasKey ts e = false ↔
      ∀ t ∈ ts, ¬ (t.transactionHash = e.transactionHash ∧ t.logIndex = e.logIndex) := by
  induction ts with
  | nil => simp [hasKey]
  | cons t rest ih =>
      simp only [hasKey, Bool.or_eq_false_iff, Bool.and_eq_false_iff, List.mem_cons]
      constructor
      · rintro ⟨h1, h2⟩ x hx
        rcases hx with rfl | hx
        · rcases h1 with h1 | h1 <;> simp_all
        · exact (ih.mp h2) x hx
      · intro h
        refine ⟨?_, ih.mpr (fun x hx => h x (Or.inr hx))⟩
        have := h t (Or.inl rfl)
        by_cases htx : t.transactionHash = e.transactionHash
        · right
          simp only [decide_eq_false_iff_not]
          exact fun hli => this ⟨htx, hli⟩
        · left
          simp only [decide_eq_false_iff_not]
          exact htx

theorem lookupBlock_mem {l : List BlockRecord} {n : Nat} {b : BlockRecord}
    (h : lookupBlock l n = some b) : b ∈ l ∧ b.number = n := by
  induction l with
  | nil => simp [lookupBlock] at h
  | cons x rest ih =>
      by_cases hx : x.number = n
      · simp [lookupBlock, hx] at h
        subst h
        exact ⟨List.mem_cons_self _ _, hx⟩
      · simp [lookupBlock, hx] at h
        obtain ⟨hm, hn⟩ := ih h
        exact ⟨List.mem_cons_of_mem _ hm, hn⟩

theorem lookupBlock_eq_none {l : List BlockRecord} {n : Nat}
    (h : lookupBlock l n = none) : ∀ b ∈ l, b.number ≠ n := by
  induction l with
  | nil => simp
  | cons x rest ih =>
      by_cases hx : x.number = n
      · simp [lookupBlock, hx] at h
      · simp [lookupBlock, hx] at h
        intro b hb
        rcases List.mem_cons.mp hb with rfl | hb
        · exact hx
        · exact ih h b hb

theorem lookupBlock_append (l l2 : List BlockRecord) (n : Nat) :
    lookupBlock (l ++ l2) n =
      match lookupBlock l n with
      | some b => some b
      | none => lookupBlock l2 n := by
  induction l with
  | nil => simp [lookupBlock]
  | cons x rest ih =>
      by_cases hx : x.number = n <;> simp [lookupBlock, hx, ih]

theorem lookupBlock_append_of_isSome {l : List BlockRecord} {n : Nat}
    (h : (lookupBlock l n).isSome) (l2 : List BlockRecord) :
    lookupBlock (l ++ l2) n = lookupBlock l n := by
  rw [lookupBlock_append]
  cases hl : lookupBlock l n with
  | some b => rfl
  | none => rw [hl] at h; simp at h

theorem lookupBlock_append_right {l : List BlockRecord} {n : Nat}
    (h : lookupBlock l n = none) (l2 : List BlockRecord) :
    lookupBlock (l ++ l2) n = lookupBlock l2 n := by
  rw [lookupBlock_append, h]

theorem lookupBlock_nodup {l : List BlockRecord} {n : Nat} {c : BlockRecord}
    (hnd : List.Pairwise (fun a b => a.number ≠ b.number) l)
    (hc : c ∈ l) (hn : c.number = n) : lookupBlock l n = some c := by
  induction l with
  | nil => simp at hc
  | cons x rest ih =>
      rcases List.mem_cons.mp hc with rfl | hc
      · simp [lookupBlock, hn]
      · have hxc : x.number ≠ c.number := (List.pairwise_cons.mp hnd).1 c hc
        have hx : x.number ≠ n := by rw [← hn]; exact hxc
        simp [lookupBlock, hx]
        exact ih (List.pairwise_cons.mp hnd).2 hc

theorem lookupBlock_filter {l : List BlockRecord} {n : Nat}
    (p : BlockRecord → Bool) (hp : ∀ b, b.number = n → p b = true) :
    lookupBlock (l.filter p) n = lookupBlock l n := by
  induction l with
  | nil => simp
  | cons x rest ih =>
      by_cases hx : x.number = n
      · have := hp x hx
        simp [List.filter_cons, this, lookupBlock, hx]
      · by_cases hpx : p x = true
        · simp [List.filter_cons, hpx, lookupBlock, hx, ih]
        · simp only [Bool.not_eq_true] at hpx
          simp [List.filter_cons, hpx, lookupBlock, hx, ih]

theorem sortedB_tail {e : TransferEvent} {rest : List TransferEvent}
    (h : sortedB (e :: rest) = true) : sortedB rest = true := by
  cases rest with
  | nil => rfl
  | cons b r =>
      simp only [sortedB, Bool.and_eq_true] at h
      exact h.2

theorem sortedB_head_le {e : TransferEvent} {rest : List TransferEvent}
    (h : sortedB (e :: rest) = true) :
    ∀ x ∈ rest, e.blockNumber ≤ x.blockNumber := by
  induction rest generalizing e with
  | nil => simp
  | cons b r ih =>
      simp only [sortedB, Bool.and_eq_true, decide_eq_true_eq] at h
      intro x hx
      rcases List.mem_cons.mp hx with rfl | hx
      · exact h.1
      · exact le_trans h.1 (ih h.2 x hx)

theorem sortedB_pairwise {es : List TransferEvent} (h : sortedB es = true) :
    List.Pairwise (fun a b => a.blockNumber ≤ b.blockNumber) es := by
  induction es with
  | nil => exact List.Pairwise.nil
  | cons e rest ih =>
      exact List.pairwise_cons.mpr ⟨sortedB_head_le h, ih (sortedB_tail h)⟩

theorem delta_mint {e : TransferEvent} (he : e.eventType = EventKind.mint)
    (k : AcctKey) :
    delta e k = if k = (e.toAddress, e.tokenAddress) then (e.amount : Int) else 0 := by
  simp [delta, he]

theorem delta_burn {e : TransferEvent} (he : e.eventType = EventKind.burn)
    (k : AcctKey) :
    delta e k = -(if k = (e.fromAddress, e.tokenAddress) then (e.amount : Int) else 0) := by
  simp [delta, he]

theorem delta_transfer {e : TransferEvent} (he : e.eventType = EventKind.transfer)
    (k : AcctKey) :
    delta e k =
      (if k = (e.toAddress, e.tokenAddress) then (e.amount : Int) else 0)
      - (if k = (e.fromAddress, e.tokenAddress) then (e.amount : Int) else 0) := by
  simp [delta, he]

theorem GuardedList_append_left {bal : AcctKey → Int}
    {p q : List TransferEvent} (h : GuardedList bal (p ++ q)) :
    GuardedList bal p := by
  induction p generalizing bal with
  | nil => trivial
  | cons e rest ih =>
      obtain ⟨h1, h2⟩ := h
      exact ⟨h1, ih h2⟩

theorem GuardedList_append_one {bal : AcctKey → Int}
    {ts : List TransferEvent} {e : TransferEvent}
    (hg : GuardedList bal ts)
    (he : e.eventType ≠ EventKind.mint →
      (e.amount : Int) ≤ bal (e.fromAddress, e.tokenAddress)
        + signedSum ts (e.fromAddress, e.tokenAddress)) :
    GuardedList bal (ts ++ [e]) := by
  induction ts generalizing bal with
  | nil =>
      refine ⟨?_, trivial⟩
      intro hm
      have := he hm
      simpa [signedSum] using this
  | cons t rest ih =>
      obtain ⟨h1, h2⟩ := hg
      refine ⟨h1, ih h2 ?_⟩
      intro hm
      have := he hm
      rw [signedSum_cons] at this
      linarith

theorem bal_delta_nonneg {bal : AcctKey → Int} {e : TransferEvent}
    (h0 : ∀ k, 0 ≤ bal k)
    (hg : e.eventType ≠ EventKind.mint →
      (e.amount : Int) ≤ bal (e.fromAddress, e.tokenAddress)) :
    ∀ k, 0 ≤ bal k + delta e k := by
  intro k
  unfold delta
  split_ifs with h1 h2 h2
  · linarith [h0 k]
  · linarith [h0 k]
  · obtain ⟨hk, hm⟩ := h2
    subst hk
    linarith [hg hm]
  · linarith [h0 k]

theorem GuardedList_nonneg :
    ∀ (ts : List TransferEvent) (bal : AcctKey → Int),
      GuardedList bal ts → (∀ k, 0 ≤ bal k) →
      ∀ k, 0 ≤ bal k + signedSum ts k := by
  intro ts
  induction ts with
  | nil => intro bal _ h0 k; simpa [signedSum] using h0 k
  | cons e rest ih =>
      intro bal hg h0 k
      obtain ⟨h1, h2⟩ := hg
      have h0' := bal_delta_nonneg h0 h1
      have := ih _ h2 h0' k
      rw [signedSum_cons]
      linarith

theorem getBal_debit_credit (b : Balances) (fk tk k : AcctKey) (a : Int) :
    getBal (setBal (setBal b fk (getBal b fk - a)) tk
        (getBal (setBal b fk (getBal b fk - a)) tk + a)) k
      = getBal b k + ((if k = tk then a else 0) - (if k = fk then a else 0)) := by
  simp only [getBal_setBal]
  by_cases h1 : tk = k
  · subst h1
    by_cases h2 : fk = tk
    · subst h2
      simp
    · have h2' : ¬ tk = fk := fun h => h2 h.symm
      simp [h2, h2']
      try ring
  · have h1' : ¬ k = tk := fun h => h1 h.symm
    by_cases h2 : fk = k
    · subst h2
      simp [h1, h1']
      try ring
    · have h2' : ¬ k = fk := fun h => h2 h.symm
      simp [h1, h1', h2, h2']

theorem applyEvent_dup {tsOf : Nat → Nat} {u : Store} {e : TransferEvent}
    (h : hasKey u.transfers e = true) :
    applyEvent tsOf u e = Except.ok u := by
  simp [applyEvent, h]

theorem applyEvent_ok_new {tsOf : Nat → Nat} {u u2 : Store} {e : TransferEvent}
    (hk : hasKey u.transfers e = false)
    (h : applyEvent tsOf u e = Except.ok u2) :
    u2.transfers = u.transfers ++ [e]
    ∧ (∀ k, getBal u2.balances k = getBal u.balances k + delta e k)
    ∧ u2.hourly = updHourly u.hourly (hourKey tsOf e) e
    ∧ u2.blocks = u.blocks ∧ u2.checkpoint = u.checkpoint
    ∧ (e.eventType ≠ EventKind.mint →
        (e.amount : Int) ≤ getBal u.balances (e.fromAddress, e.tokenAddress)) := by
  cases he : e.eventType with
  | mint =>
      simp only [applyEvent, hk, Bool.false_eq_true, if_false, he] at h
      obtain rfl := (Except.ok.injEq _ _).mp h.symm
      refine ⟨rfl, ?_, rfl, rfl, rfl, ?_⟩
      · intro k
        rw [getBal_setBal, delta_mint he]
        by_cases hx : (e.toAddress, e.tokenAddress) = k
        · rw [if_pos hx, if_pos hx.symm, hx]
        · rw [if_neg hx, if_neg (fun hh => hx hh.symm)]
          ring
      · intro hm; exact absurd rfl hm
  | burn =>
      simp only [applyEvent, hk, Bool.false_eq_true, if_false, he] at h
      by_cases hle : (e.amount : Int) ≤ getBal u.balances (e.fromAddress, e.tokenAddress)
      · rw [if_pos hle] at h
        obtain rfl := (Except.ok.injEq _ _).mp h.symm
        refine ⟨rfl, ?_, rfl, rfl, rfl, fun _ => hle⟩
        intro k
        rw [getBal_setBal, delta_burn he]
        by_cases hx : (e.fromAddress, e.tokenAddress) = k
        · rw [if_pos hx, if_pos hx.symm, hx]
          ring
        · rw [if_neg hx, if_neg (fun hh => hx hh.symm)]
          ring
      · rw [if_neg hle] at h
        exact absurd h (by simp)
  | transfer =>
      simp only [applyEvent, hk, Bool.false_eq_true, if_false, he] at h
      by_cases hle : (e.amount : Int) ≤ getBal u.balances (e.fromAddress, e.tokenAddress)
      · rw [if_pos hle] at h
        obtain rfl := (Except.ok.injEq _ _).mp h.symm
        refine ⟨rfl, ?_, rfl, rfl, rfl, fun _ => hle⟩
        intro k
        rw [delta_transfer he]
        exact getBal_debit_credit u.balances
          (e.fromAddress, e.tokenAddress) (e.toAddress, e.tokenAddress) k
          (e.amount : Int)
      · rw [if_neg hle] at h
        exact absurd h (by simp)

theorem applyEvent_neg {tsOf : Nat → Nat} {u : Store} {e : TransferEvent}
    (hk : hasKey u.transfers e = false)
    (hm : e.eventType ≠ EventKind.mint)
    (hlt : getBal u.balances (e.fromAddress, e.tokenAddress) < (e.amount : Int)) :
    applyEvent tsOf u e = Except.error LedgerError.negativeBalance := by
  have hle : ¬ (e.amount : Int) ≤ getBal u.balances (e.fromAddress, e.tokenAddress) :=
    not_le.mpr hlt
  cases he : e.eventType with
  | mint => exact absurd he hm
  | burn => simp [applyEvent, hk, he, hle]
  | transfer => simp [applyEvent, hk, he, hle]

theorem applyEvent_frame {tsOf : Nat → Nat} {u u2 : Store} {e : TransferEvent}
    (h : applyEvent tsOf u e = Except.ok u2) :
    u2.blocks = u.blocks ∧ u2.checkpoint = u.checkpoint
    ∧ u.transfers <+: u2.transfers := by
  by_cases hk : hasKey u.transfers e = true
  · rw [applyEvent_dup hk] at h
    obtain rfl := (Except.ok.injEq _ _).mp h.symm
    exact ⟨rfl, rfl, List.prefix_rfl⟩
  · have hk' : hasKey u.transfers e = false := by
      simpa using hk
    obtain ⟨ht, _, _, hbk, hcp, _⟩ := applyEvent_ok_new hk' h
    exact ⟨hbk, hcp, ht ▸ List.prefix_append u.transfers [e]⟩

theorem applyEvents_frame {tsOf : Nat → Nat} :
    ∀ {es : List TransferEvent} {u u2 : Store},
      applyEvents tsOf u es = Except.ok u2 →
      u2.blocks = u.blocks ∧ u2.checkpoint = u.checkpoint
      ∧ u.transfers <+: u2.transfers := by
  intro es
  induction es with
  | nil =>
      intro u u2 h
      simp only [applyEvents] at h
      injection h with h
      subst h
      exact ⟨rfl, rfl, List.prefix_rfl⟩
  | cons e rest ih =>
      intro u u2 h
      simp only [applyEvents] at h
      cases h1 : applyEvent tsOf u e with
      | ok u1 =>
          rw [h1] at h
          obtain ⟨hb1, hc1, hp1⟩ := applyEvent_frame h1
          obtain ⟨hb2, hc2, hp2⟩ := ih h
          exact ⟨hb2.trans hb1, hc2.trans hc1, hp1.trans hp2⟩
      | error err => rw [h1] at h; exact absurd h (by simp)

theorem applyEvents_dup_all {tsOf : Nat → Nat} :
    ∀ {es : List TransferEvent} {u : Store},
      (∀ e ∈ es, hasKey u.transfers e = true) →
      applyEvents tsOf u es = Except.ok u := by
  intro es
  induction es with
  | nil => intro u _; rfl
  | cons e rest ih =>
      intro u h
      have he := h e (List.mem_cons_self _ _)
      simp only [applyEvents, applyEvent_dup he]
      exact ih (fun x hx => h x (List.mem_cons_of_mem _ hx))

theorem chainOk_parts {prev : Option String} {start : Nat} {x : BlockRecord}
    {rest : List BlockRecord}
    (h : chainOk prev start (x :: rest) = true) :
    x.number = start
    ∧ (∀ hh, prev = some hh → x.parentHash = hh)
    ∧ chainOk (some x.hash) (start + 1) rest = true := by
  simp only [chainOk, Bool.and_eq_true, decide_eq_true_eq] at h
  obtain ⟨⟨h1, h2⟩, h3⟩ := h
  refine ⟨h1, ?_, h3⟩
  intro hh hp
  rw [hp] at h2
  simpa using h2

theorem chainOk_bounds :
    ∀ {bs : List BlockRecord} {prev : Option String} {start : Nat},
      chainOk prev start bs = true →
      ∀ b ∈ bs, start ≤ b.number ∧ b.number < start + bs.length := by
  intro bs
  induction bs with
  | nil => simp
  | cons x rest ih =>
      intro prev start h b hb
      obtain ⟨h1, _, h3⟩ := chainOk_parts h
      rcases List.mem_cons.mp hb with hbx | hb
      · simp only [List.length_cons]
        rw [hbx]
        omega
      · have h4 := ih h3 b hb
        simp only [List.length_cons] at h4 ⊢
        omega

theorem chainOk_start_link :
    ∀ {bs : List BlockRecord} {prev : Option String} {start : Nat},
      chainOk prev start bs = true →
      ∀ b ∈ bs, b.number = start → ∀ hh, prev = some hh → b.parentHash = hh := by
  intro bs
  induction bs with
  | nil => simp
  | cons x rest ih =>
      intro prev start h b hb hn hh hp
      obtain ⟨h1, h2, h3⟩ := chainOk_parts h
      rcases List.mem_cons.mp hb with rfl | hb
      · exact h2 hh hp
      · have := (chainOk_bounds h3 b hb).1
        omega

theorem chainOk_internal :
    ∀ {bs : List BlockRecord} {prev : Option String} {start : Nat},
      chainOk prev start bs = true →
      ∀ b ∈ bs, ∀ c ∈ bs, b.number = c.number + 1 → b.parentHash = c.hash := by
  intro bs
  induction bs with
  | nil => simp
  | cons x rest ih =>
      intro prev start h b hb c hc heq
      obtain ⟨h1, h2, h3⟩ := chainOk_parts h
      rcases List.mem_cons.mp hb with hbx | hb
      · rcases List.mem_cons.mp hc with hcx | hc
        · exfalso
          rw [hbx, hcx] at heq
          omega
        · exfalso
          have := (chainOk_bounds h3 c hc).1
          rw [hbx] at heq
          omega
      · rcases List.mem_cons.mp hc with hcx | hc
        · have hbn : b.number = start + 1 := by
            rw [heq, hcx, h1]
          rw [hcx]
          exact chainOk_start_link h3 b hb hbn x.hash rfl
        · exact ih h3 b hb c hc heq

theorem chainOk_pairwise_lt :
    ∀ {bs : List BlockRecord} {prev : Option String} {start : Nat},
      chainOk prev start bs = true →
      List.Pairwise (fun a b => a.number < b.number) bs := by
  intro bs
  induction bs with
  | nil => intro _ _ _; exact List.Pairwise.nil
  | cons x rest ih =>
      intro prev start h
      obtain ⟨h1, _, h3⟩ := chainOk_parts h
      refine List.pairwise_cons.mpr ⟨?_, ih h3⟩
      intro b hb
      have := (chainOk_bounds h3 b hb).1
      omega

theorem chainOk_lookup :
    ∀ {bs : List BlockRecord} {prev : Option String} {start : Nat},
      chainOk prev start bs = true →
      ∀ m, start ≤ m → m < start + bs.length → (lookupBlock bs m).isSome := by
  intro bs
  induction bs with
  | nil => intro _ _ _ m h1 h2; simp at h2; omega
  | cons x rest ih =>
      intro prev start h m h1 h2
      obtain ⟨hx, _, h3⟩ := chainOk_parts h
      by_cases hm : x.number = m
      · simp [lookupBlock, hm]
      · have hm2 : start + 1 ≤ m := by omega
        have hm3 : m < (start + 1) + rest.length := by
          simp at h2
          omega
        simp only [lookupBlock, hm, if_false]
        exact ih h3 m hm2 hm3

theorem hourlyOf_go_congr (f g : Nat → Nat) :
    ∀ (ts : List TransferEvent) (h0 : Hourly),
      (∀ t ∈ ts, f t.blockNumber = g t.blockNumber) →
      List.foldl (fun h e => updHourly h (hourKey f e) e) h0 ts
        = List.foldl (fun h e => updHourly h (hourKey g e) e) h0 ts := by
  intro ts
  induction ts with
  | nil => intro h0 _; rfl
  | cons e rest ih =>
      intro h0 h
      have he : hourKey f e = hourKey g e := by
        unfold hourKey
        rw [h e (List.mem_cons_self _ _)]
      simp only [List.foldl_cons, he]
      exact ih _ (fun t ht => h t (List.mem_cons_of_mem _ ht))

theorem hourlyOf_congr {f g : Nat → Nat} {ts : List TransferEvent}
    (h : ∀ t ∈ ts, f t.blockNumber = g t.blockNumber) :
    hourlyOf f ts = hourlyOf g ts :=
  hourlyOf_go_congr f g ts [] h

theorem hourlyOf_append_one (f : Nat → Nat) (ts : List TransferEvent)
    (e : TransferEvent) :
    hourlyOf f (ts ++ [e]) = updHourly (hourlyOf f ts) (hourKey f e) e := by
  simp [hourlyOf, List.foldl_append]

theorem signedSum_one (e : TransferEvent) (k : AcctKey) :
    signedSum [e] k = delta e k := by
  simp [signedSum]

theorem applyEvents_midinv {tsOf : Nat → Nat} {hi : Nat} :
    ∀ {es : List TransferEvent} {u u2 : Store},
      applyEvents tsOf u es = Except.ok u2 →
      MidInv tsOf hi u →
      (∀ e ∈ es, (lookupBlock u.blocks e.blockNumber).isSome) →
      (∀ e ∈ es, e.blockNumber ≤ hi) →
      sortedB es = true →
      (∀ t ∈ u.transfers, ∀ e ∈ es, t.blockNumber ≤ e.blockNumber) →
      MidInv tsOf hi u2 := by
  intro es
  induction es with
  | nil =>
      intro u u2 h hinv _ _ _ _
      simp only [applyEvents] at h
      injection h with h
      subst h
      exact hinv
  | cons e rest ih =>
      intro u u2 h hinv hlook hle hsort hcross
      simp only [applyEvents] at h
      cases h1 : applyEvent tsOf u e with
      | error err =>
          rw [h1] at h
          exact absurd h (by simp)
      | ok u1 =>
          rw [h1] at h
          by_cases hk : hasKey u.transfers e = true
          · rw [applyEvent_dup hk] at h1
            obtain rfl := (Except.ok.injEq _ _).mp h1
            exact ih h hinv
              (fun x hx => hlook x (List.mem_cons_of_mem _ hx))
              (fun x hx => hle x (List.mem_cons_of_mem _ hx))
              (sortedB_tail hsort)
              (fun t ht x hx => hcross t ht x (List.mem_cons_of_mem _ hx))
          · have hk' : hasKey u.transfers e = false := by simpa using hk
            obtain ⟨ht, hbal, hhr, hbk, hcp, hgd⟩ := applyEvent_ok_new hk' h1
            have hmem1 : ∀ t ∈ u1.transfers,
                t ∈ u.transfers ∨ t = e := by
              intro t htm
              rw [ht] at htm
              rcases List.mem_append.mp htm with hm | hm
              · exact Or.inl hm
              · exact Or.inr (List.mem_singleton.mp hm)
            have hinv1 : MidInv tsOf hi u1 := by
              refine ⟨?_, ?_, ?_, ?_, ?_, ?_, ?_⟩
              · rw [ht]
                refine (List.pairwise_append).mpr
                  ⟨hinv.uniqKeys, List.pairwise_singleton _ _, ?_⟩
                intro a ha b hb
                rw [List.mem_singleton.mp hb]
                exact (hasKey_false_iff _ _).mp hk' a ha
              · intro k
                rw [hbal k, ht, signedSum_append, signedSum_one,
                  hinv.balInv k]
              · rw [ht]
                refine GuardedList_append_one hinv.guarded ?_
                intro hm
                have := hgd hm
                rw [hinv.balInv] at this
                simpa using this
              · rw [ht]
                refine (List.pairwise_append).mpr
                  ⟨hinv.transSorted, List.pairwise_singleton _ _, ?_⟩
                intro a ha b hb
                rw [List.mem_singleton.mp hb]
                exact hcross a ha e (List.mem_cons_self _ _)
              · intro t htm
                rcases hmem1 t htm with hm | hm
                · exact hinv.transLe t hm
                · rw [hm]
                  exact hle e (List.mem_cons_self _ _)
              · intro t htm
                rw [hbk]
                rcases hmem1 t htm with hm | hm
                · exact hinv.transStored t hm
                · rw [hm]
                  exact hlook e (List.mem_cons_self _ _)
              · rw [hhr, ht, hourlyOf_append_one, hinv.hourlyInv]
            refine ih h hinv1 ?_ ?_ (sortedB_tail hsort) ?_
            · intro x hx
              rw [hbk]
              exact hlook x (List.mem_cons_of_mem _ hx)
            · intro x hx
              exact hle x (List.mem_cons_of_mem _ hx)
            · intro t htm x hx
              rcases hmem1 t htm with hm | hm
              · exact hcross t hm x (List.mem_cons_of_mem _ hx)
              · rw [hm]
                exact sortedB_head_le hsort x hx

theorem lookupBlock_none_of_forall :
    ∀ {l : List BlockRecord} {n : Nat},
      (∀ b ∈ l, b.number ≠ n) → lookupBlock l n = none := by
  intro l
  induction l with
  | nil => intro n _; rfl
  | cons x rest ih =>
      intro n h
      have hx := h x (List.mem_cons_self _ _)
      simp only [lookupBlock, hx, if_false]
      exact ih (fun b hb => h b (List.mem_cons_of_mem _ hb))

theorem blockTs_append {l l2 : List BlockRecord} {n : Nat}
    (h : (lookupBlock l n).isSome) : blockTs (l ++ l2) n = blockTs l n := by
  unfold blockTs
  rw [lookupBlock_append_of_isSome h]

theorem eventsOk_bounds {lo hi : Nat} {es : List TransferEvent}
    (h : eventsOk lo hi es = true) :
    (∀ e ∈ es, lo ≤ e.blockNumber ∧ e.blockNumber ≤ hi) ∧ sortedB es = true := by
  unfold eventsOk at h
  rw [Bool.and_eq_true] at h
  obtain ⟨h1, h2⟩ := h
  refine ⟨?_, h2⟩
  intro e he
  have := List.all_eq_true.mp h1 e he
  simpa using this

theorem applyBatch_elim {s s2 : Store} {bs : List BlockRecord}
    {es : List TransferEvent} (h : applyBatch s bs es = Except.ok s2) :
    (bs = [] ∧ s2 = s) ∨
    (bs ≠ []
      ∧ chainOk ((lookupBlock s.blocks s.checkpoint).map (fun b => b.hash))
          (s.checkpoint + 1) bs = true
      ∧ eventsOk (s.checkpoint + 1) (s.checkpoint + bs.length) es = true
      ∧ ∃ s3, applyEvents (blockTs (s.blocks ++ bs))
            { s with blocks := s.blocks ++ bs } es = Except.ok s3
          ∧ s2 = { s3 with checkpoint := s.checkpoint + bs.length }) := by
  cases bs with
  | nil =>
      left
      simp only [applyBatch] at h
      injection h with h
      exact ⟨rfl, h.symm⟩
  | cons b0 brest =>
      right
      refine ⟨by simp, ?_⟩
      simp only [applyBatch] at h
      by_cases hc : (chainOk ((lookupBlock s.blocks s.checkpoint).map (fun b => b.hash))
          (s.checkpoint + 1) (b0 :: brest)
          && eventsOk (s.checkpoint + 1) (s.checkpoint + (b0 :: brest).length) es) = true
      · rw [if_pos hc] at h
        rw [Bool.and_eq_true] at hc
        obtain ⟨hch, hev⟩ := hc
        refine ⟨hch, hev, ?_⟩
        cases h2 : applyEvents (blockTs (s.blocks ++ b0 :: brest))
            { s with blocks := s.blocks ++ b0 :: brest } es with
        | ok s3 =>
            rw [h2] at h
            injection h with h
            exact ⟨s3, rfl, h.symm⟩
        | error err =>
            rw [h2] at h
            exact absurd h (by simp)
      · rw [if_neg hc] at h
        exact absurd h (by simp)

theorem storeInv_applyBatch {s s2 : Store} {bs : List BlockRecord}
    {es : List TransferEvent}
    (hinv : StoreInv s) (h : applyBatch s bs es = Except.ok s2) : StoreInv s2 := by
  rcases applyBatch_elim h with ⟨_, rfl⟩ | ⟨hne, hch, hev, s3, h2, rfl⟩
  · exact hinv
  · obtain ⟨hbnd, hsort⟩ := eventsOk_bounds hev
    have hlenpos : 0 < bs.length := List.length_pos.mpr hne
    -- old blocks never collide with the new range by number
    have holdnone : ∀ m, s.checkpoint + 1 ≤ m → lookupBlock s.blocks m = none := by
      intro m hm
      refine lookupBlock_none_of_forall ?_
      intro b hb
      have := hinv.blocksLe b hb
      omega
    -- every event block is covered by the appended range
    have hlook2 : ∀ e ∈ es, (lookupBlock (s.blocks ++ bs) e.blockNumber).isSome := by
      intro e he
      obtain ⟨hlo, hhi⟩ := hbnd e he
      rw [lookupBlock_append_right (holdnone e.blockNumber hlo)]
      exact chainOk_lookup hch e.blockNumber hlo (by omega)
    have hmid0 : MidInv (blockTs (s.blocks ++ bs)) (s.checkpoint + bs.length)
        { s with blocks := s.blocks ++ bs } := by
      refine ⟨hinv.uniqKeys, hinv.balInv, hinv.guarded, hinv.transSorted,
        ?_, ?_, ?_⟩
      · intro t ht
        have := hinv.transLe t ht
        omega
      · intro t ht
        have hs := hinv.transStored t ht
        simp only
        rw [lookupBlock_append_of_isSome hs]
        exact hs
      · simp only
        rw [hinv.hourlyInv]
        refine (hourlyOf_congr ?_).symm
        intro t ht
        exact blockTs_append (hinv.transStored t ht)
    have hmid := applyEvents_midinv h2 hmid0 hlook2
      (fun e he => (hbnd e he).2) hsort
      (fun t ht e he => by
        have h1 := hinv.transLe t ht
        have h2b := (hbnd e he).1
        omega)
    obtain ⟨hb3, hc3, _⟩ := applyEvents_frame h2
    -- the final store: s3 with the advanced checkpoint
    refine ⟨hmid.uniqKeys, hmid.balInv, hmid.guarded, ?_, ?_, ?_,
      ?_, hmid.transSorted, ?_, ?_⟩
    · -- contiguity over the appended block list
      intro b hb c hc heq
      simp only at hb hc
      rw [hb3] at hb hc
      rcases List.mem_append.mp hb with hbo | hbn <;>
        rcases List.mem_append.mp hc with hco | hcn
      · exact hinv.contig b hbo c hco heq
      · exfalso
        have hb1 := hinv.blocksLe b hbo
        have hc1 := (chainOk_bounds hch c hcn).1
        omega
      · -- b is the first new block, c the stored block at the checkpoint
        have hb1 := (chainOk_bounds hch b hbn).1
        have hc1 := hinv.blocksLe c hco
        have hbs : b.number = s.checkpoint + 1 := by omega
        have hcs : c.number = s.checkpoint := by omega
        have hlc : lookupBlock s.blocks s.checkpoint = some c :=
          lookupBlock_nodup hinv.blockNodup hco hcs
        refine chainOk_start_link hch b hbn hbs c.hash ?_
        rw [hlc]
        rfl
      · exact chainOk_internal hch b hbn c hcn heq
    · -- block numbers pairwise distinct
      simp only
      rw [hb3]
      refine (List.pairwise_append).mpr
        ⟨hinv.blockNodup, (chainOk_pairwise_lt hch).imp (by omega), ?_⟩
      intro a ha b hb
      have h1 := hinv.blocksLe a ha
      have h2b := (chainOk_bounds hch b hb).1
      omega
    · -- block numbers bounded by the new checkpoint
      intro b hb
      simp only at hb ⊢
      rw [hb3] at hb
      rcases List.mem_append.mp hb with hbo | hbn
      · have := hinv.blocksLe b hbo
        omega
      · have := (chainOk_bounds hch b hbn).2
        omega
    · -- transfer blocks bounded by the new checkpoint
      intro t ht
      simp only at ht ⊢
      exact hmid.transLe t ht
    · -- every transfer block stored
      intro t ht
      simp only at ht ⊢
      exact hmid.transStored t ht
    · -- hourly rollups derivable
      simp only
      rw [hb3]
      exact hmid.hourlyInv

theorem getBal_credit_debit (b : Balances) (fk tk k : AcctKey) (a : Int) :
    getBal (setBal (setBal b fk (getBal b fk + a)) tk
        (getBal (setBal b fk (getBal b fk + a)) tk - a)) k
      = getBal b k - ((if k = tk then a else 0) - (if k = fk then a else 0)) := by
  simp only [getBal_setBal]
  by_cases h1 : tk = k
  · subst h1
    by_cases h2 : fk = tk
    · subst h2
      simp
    · have h2' : ¬ tk = fk := fun h => h2 h.symm
      simp [h2, h2']
      try ring
  · have h1' : ¬ k = tk := fun h => h1 h.symm
    by_cases h2 : fk = k
    · subst h2
      simp [h1, h1']
      try ring
    · have h2' : ¬ k = fk := fun h => h2 h.symm
      simp [h1, h1', h2, h2']

theorem getBal_revertBal (b : Balances) (e : TransferEvent) (k : AcctKey) :
    getBal (revertBal b e) k = getBal b k - delta e k := by
  cases he : e.eventType with
  | mint =>
      unfold revertBal
      rw [he, getBal_setBal, delta_mint he]
      by_cases hx : (e.toAddress, e.tokenAddress) = k
      · rw [if_pos hx, if_pos hx.symm, hx]
      · rw [if_neg hx, if_neg (fun hh => hx hh.symm)]
        ring
  | burn =>
      unfold revertBal
      rw [he, getBal_setBal, delta_burn he]
      by_cases hx : (e.fromAddress, e.tokenAddress) = k
      · rw [if_pos hx, if_pos hx.symm, hx]
        ring
      · rw [if_neg hx, if_neg (fun hh => hx hh.symm)]
        ring
  | transfer =>
      unfold revertBal
      rw [he, delta_transfer he]
      exact getBal_credit_debit b
        (e.fromAddress, e.tokenAddress) (e.toAddress, e.tokenAddress) k
        (e.amount : Int)

theorem getBal_foldl_revertBal :
    ∀ (l : List TransferEvent) (b : Balances) (k : AcctKey),
      getBal (l.foldl revertBal b) k = getBal b k - signedSum l k := by
  intro l
  induction l with
  | nil => intro b k; simp [signedSum]
  | cons e rest ih =>
      intro b k
      simp only [List.foldl_cons]
      rw [ih, getBal_revertBal, signedSum_cons]
      ring

theorem sorted_filter_le_pfx {ts : List TransferEvent} {f : Nat}
    (h : List.Pairwise (fun a b => a.blockNumber ≤ b.blockNumber) ts) :
    ts.filter (fun t => decide (t.blockNumber ≤ f)) <+: ts := by
  induction ts with
  | nil => simp
  | cons t rest ih =>
      obtain ⟨hhead, htail⟩ := List.pairwise_cons.mp h
      by_cases hp : t.blockNumber ≤ f
      · rw [List.filter_cons_of_pos (by simp [hp])]
        obtain ⟨q, hq⟩ := ih htail
        exact ⟨q, by rw [List.cons_append, hq]⟩
      · have hnil : rest.filter (fun t => decide (t.blockNumber ≤ f)) = [] := by
          rw [List.filter_eq_nil_iff]
          intro x hx
          have := hhead x hx
          simp only [decide_eq_true_eq]
          omega
        rw [List.filter_cons_of_neg (by simp [hp]), hnil]
        exact List.nil_prefix

theorem GuardedList_of_pfx {bal : AcctKey → Int}
    {p ts : List TransferEvent} (hp : p <+: ts)
    (h : GuardedList bal ts) : GuardedList bal p := by
  obtain ⟨q, rfl⟩ := hp
  exact GuardedList_append_left h

theorem storeInv_rollback {s : Store} (hinv : StoreInv s) (f : Nat) :
    StoreInv (rollbackTo s f) := by
  refine ⟨?_, ?_, ?_, ?_, ?_, ?_, ?_, ?_, ?_, ?_⟩
  · exact List.Pairwise.sublist (List.filter_sublist _) hinv.uniqKeys
  · intro k
    show getBal ((s.transfers.filter (fun t => decide (f < t.blockNumber))).foldl
        revertBal s.balances) k
      = signedSum (s.transfers.filter (fun t => decide (t.blockNumber ≤ f))) k
    rw [getBal_foldl_revertBal, hinv.balInv k, signedSum_split s.transfers f k]
    ring
  · exact GuardedList_of_pfx (sorted_filter_le_pfx hinv.transSorted) hinv.guarded
  · intro b hb c hc heq
    exact hinv.contig b (List.mem_of_mem_filter hb) c
      (List.mem_of_mem_filter hc) heq
  · exact List.Pairwise.sublist (List.filter_sublist _) hinv.blockNodup
  · intro b hb
    have := (List.mem_filter.mp hb).2
    simpa using this
  · intro t ht
    have := (List.mem_filter.mp ht).2
    simpa using this
  · exact List.Pairwise.sublist (List.filter_sublist _) hinv.transSorted
  · intro t ht
    obtain ⟨htm, htf⟩ := List.mem_filter.mp ht
    simp only [decide_eq_true_eq] at htf
    show (lookupBlock (s.blocks.filter (fun b => decide (b.number ≤ f)))
      t.blockNumber).isSome
    rw [lookupBlock_filter]
    · exact hinv.transStored t htm
    · intro b hbn
      simp only [decide_eq_true_eq]
      omega
  · rfl

theorem storeInv_init : StoreInv initStore := by
  refine ⟨List.Pairwise.nil, ?_, trivial, ?_, List.Pairwise.nil, ?_, ?_,
    List.Pairwise.nil, ?_, rfl⟩
  · intro k
    simp [initStore, getBal, alookup, signedSum]
  · intro b hb
    simp [initStore] at hb
  · intro b hb
    simp [initStore] at hb
  · intro t ht
    simp [initStore] at ht
  · intro t ht
    simp [initStore] at ht

theorem step_applyBatch_ok {s s2 : Store} {bs : List BlockRecord}
    {es : List TransferEvent} (h : applyBatch s bs es = Except.ok s2) :
    step s (EAction.applyBatch bs es) = s2 := by
  show (match applyBatch s bs es with
    | Except.ok s2 => s2
    | Except.error _ => s) = s2
  rw [h]

theorem step_applyBatch_err {s : Store} {bs : List BlockRecord}
    {es : List TransferEvent} {err : LedgerError}
    (h : applyBatch s bs es = Except.error err) :
    step s (EAction.applyBatch bs es) = s := by
  show (match applyBatch s bs es with
    | Except.ok s2 => s2
    | Except.error _ => s) = s
  rw [h]

theorem step_reconcile_some {s : Store} {remote : Nat → String} {lb f : Nat}
    (h : findFork s remote lb = some f) :
    step s (EAction.reconcile remote lb) = rollbackTo s f := by
  show (match findFork s remote lb with
    | some f => rollbackTo s f
    | none => s) = rollbackTo s f
  rw [h]

theorem step_reconcile_none {s : Store} {remote : Nat → String} {lb : Nat}
    (h : findFork s remote lb = none) :
    step s (EAction.reconcile remote lb) = s := by
  show (match findFork s remote lb with
    | some f => rollbackTo s f
    | none => s) = s
  rw [h]

theorem storeInv_step {s : Store} (hinv : StoreInv s) (a : EAction) :
    StoreInv (step s a) := by
  cases a with
  | applyBatch bs es =>
      cases h : applyBatch s bs es with
      | ok s2 => rw [step_applyBatch_ok h]; exact storeInv_applyBatch hinv h
      | error err => rw [step_applyBatch_err h]; exact hinv
  | reconcile remote lb =>
      cases h : findFork s remote lb with
      | some f => rw [step_reconcile_some h]; exact storeInv_rollback hinv f
      | none => rw [step_reconcile_none h]; exact hinv

theorem storeInv_reachable {s : Store} (h : Reachable s) : StoreInv s := by
  induction h with
  | init => exact storeInv_init
  | next _ a ih => exact storeInv_step ih a

theorem findForkAux_some {s : Store} {remote : Nat → String} :
    ∀ {fuel n f : Nat}, findForkAux s remote n fuel = some f →
      f ≤ n ∧ ∃ b, lookupBlock s.blocks f = some b ∧ b.hash = remote f := by
  intro fuel
  induction fuel with
  | zero => intro n f h; simp [findForkAux] at h
  | succ fuel ih =>
      intro n f h
      simp only [findForkAux] at h
      split at h
      · rename_i b hl
        split at h
        · rename_i hh
          injection h with h
          subst h
          exact ⟨le_refl _, b, hl, hh⟩
        · rename_i hh
          split at h
          · exact absurd h (by simp)
          · rename_i hn
            obtain ⟨h1, h2⟩ := ih h
            exact ⟨by omega, h2⟩
      · rename_i hl
        split at h
        · exact absurd h (by simp)
        · rename_i hn
          obtain ⟨h1, h2⟩ := ih h
          exact ⟨by omega, h2⟩

theorem findFork_some {s : Store} {remote : Nat → String} {lb f : Nat}
    (h : findFork s remote lb = some f) :
    f ≤ s.checkpoint
    ∧ ∃ b, lookupBlock s.blocks f = some b ∧ b.hash = remote f :=
  findForkAux_some h

theorem demo_sanity :
    demoStore.checkpoint = 10
    ∧ demoStore.transfers = [demoMint, demoTransfer, demoBurn]
    ∧ getBal demoStore.balances ("alice", "tokA") = 60
    ∧ getBal demoStore.balances ("bob", "tokA") = 30
    ∧ findFork demoStore demoRemote 10 = some 7 := by
  refine ⟨by decide, by decide, by decide, by decide, by decide⟩

/-! ## Claim theorems -/

/-- Claim C1: the (transaction_hash, log_index) pair is unique across all
stored TransferEvents of every reachable store; applying an event whose
pair already exists is a no-op; and re-applying a batch all of whose events
are already committed leaves transfers, balances and hourly aggregates
unchanged. -/
theorem C1_unique_key_idempotent (s : Store) (h : Reachable s) :
    List.Pairwise
      (fun a b => ¬ (a.transactionHash = b.transactionHash
        ∧ a.logIndex = b.logIndex)) s.transfers
    ∧ (∀ (tsOf : Nat → Nat) (e : TransferEvent),
        hasKey s.transfers e = true → applyEvent tsOf s e = Except.ok s)
    ∧ (∀ (bs : List BlockRecord) (es : List TransferEvent),
        (∀ e ∈ es, hasKey s.transfers e = true) →
        (step s (EAction.applyBatch bs es)).transfers = s.transfers
        ∧ (step s (EAction.applyBatch bs es)).balances = s.balances
        ∧ (step s (EAction.applyBatch bs es)).hourly = s.hourly) := by
  refine ⟨(storeInv_reachable h).uniqKeys, ?_, ?_⟩
  · intro tsOf e he
    exact applyEvent_dup he
  · intro bs es hdup
    cases hb : applyBatch s bs es with
    | error err =>
        rw [step_applyBatch_err hb]
        exact ⟨rfl, rfl, rfl⟩
    | ok s2 =>
        rw [step_applyBatch_ok hb]
        rcases applyBatch_elim hb with ⟨_, rfl⟩ | ⟨hne, hch, hev, s3, h2, rfl⟩
        · exact ⟨rfl, rfl, rfl⟩
        · have hall : applyEvents (blockTs (s.blocks ++ bs))
              { s with blocks := s.blocks ++ bs } es
              = Except.ok { s with blocks := s.blocks ++ bs } :=
            applyEvents_dup_all (fun e he => hdup e he)
          rw [hall] at h2
          injection h2 with h2
          rw [← h2]
          exact ⟨rfl, rfl, rfl⟩

/-- Witness for C1 at the concrete scenario: re-applying the committed
second batch leaves transfers, balances and hourly aggregates unchanged. -/
theorem C1_witness :
    Reachable demoStore
    ∧ (∀ e ∈ [demoTransfer, demoBurn], hasKey demoStore.transfers e = true)
    ∧ ((step demoStore (EAction.applyBatch demoBlocks2
          [demoTransfer, demoBurn])).transfers = demoStore.transfers
      ∧ (step demoStore (EAction.applyBatch demoBlocks2
          [demoTransfer, demoBurn])).balances = demoStore.balances
      ∧ (step demoStore (EAction.applyBatch demoBlocks2
          [demoTransfer, demoBurn])).hourly = demoStore.hourly) := by
  have hr : Reachable demoStore :=
    Reachable.next
      (Reachable.next Reachable.init (EAction.applyBatch demoBlocks1 [demoMint]))
      (EAction.applyBatch demoBlocks2 [demoTransfer, demoBurn])
  exact ⟨hr, by decide,
    (C1_unique_key_idempotent demoStore hr).2.2 demoBlocks2
      [demoTransfer, demoBurn] (by decide)⟩

/-- Claim C2: in every reachable store, the stored balance of every
(address, token) pair equals the signed sum of the deltas of all stored
TransferEvents for that pair (mint credits the receiver, burn debits the
sender, transfer debits the sender and credits the receiver), whatever
sequence of batch applies and reorg rollbacks produced the store. -/
theorem C2_balance_signed_sum (s : Store) (h : Reachable s)
    (addr tok : String) :
    getBal s.balances (addr, tok) = signedSum s.transfers (addr, tok) :=
  (storeInv_reachable h).balInv (addr, tok)

/-- Witness for C2: the concrete scenario store and the alice account. -/
theorem C2_witness :
    Reachable demoStore
    ∧ getBal demoStore.balances ("alice", "tokA")
        = signedSum demoStore.transfers ("alice", "tokA") := by
  have hr : Reachable demoStore :=
    Reachable.next
      (Reachable.next Reachable.init (EAction.applyBatch demoBlocks1 [demoMint]))
      (EAction.applyBatch demoBlocks2 [demoTransfer, demoBurn])
  exact ⟨hr, C2_balance_signed_sum demoStore hr "alice" "tokA"⟩

/-- Claim C3: one batch apply is atomic. Either it fails and the engine
keeps the store exactly as it was, or it succeeds and the result extends
the block list and the transfer list and carries the (never decreased)
checkpoint, all in the single returned store. -/
theorem C3_apply_atomic (s : Store) (bs : List BlockRecord)
    (es : List TransferEvent) :
    (∃ err, applyBatch s bs es = Except.error err
      ∧ step s (EAction.applyBatch bs es) = s)
    ∨ (∃ s2, applyBatch s bs es = Except.ok s2
      ∧ step s (EAction.applyBatch bs es) = s2
      ∧ s.blocks <+: s2.blocks
      ∧ s.transfers <+: s2.transfers
      ∧ s.checkpoint ≤ s2.checkpoint) := by
  cases hb : applyBatch s bs es with
  | error err => exact Or.inl ⟨err, rfl, step_applyBatch_err hb⟩
  | ok s2 =>
      refine Or.inr ⟨s2, rfl, step_applyBatch_ok hb, ?_⟩
      rcases applyBatch_elim hb with ⟨_, rfl⟩ | ⟨hne, hch, hev, s3, h2, rfl⟩
      · exact ⟨List.prefix_rfl, List.prefix_rfl, le_refl _⟩
      · obtain ⟨hb3, hc3, hp3⟩ := applyEvents_frame h2
        refine ⟨?_, hp3, ?_⟩
        · show s.blocks <+: s3.blocks
          rw [hb3]
          exact List.prefix_append _ _
        · show s.checkpoint ≤ s.checkpoint + bs.length
          omega

/-- Witness for C3: the first demo batch applied to the fresh store. -/
theorem C3_witness :
    (∃ err, applyBatch initStore demoBlocks1 [demoMint] = Except.error err
      ∧ step initStore (EAction.applyBatch demoBlocks1 [demoMint]) = initStore)
    ∨ (∃ s2, applyBatch initStore demoBlocks1 [demoMint] = Except.ok s2
      ∧ step initStore (EAction.applyBatch demoBlocks1 [demoMint]) = s2
      ∧ initStore.blocks <+: s2.blocks
      ∧ initStore.transfers <+: s2.transfers
      ∧ initStore.checkpoint ≤ s2.checkpoint) :=
  C3_apply_atomic initStore demoBlocks1 [demoMint]

/-- Claim C4: contiguity. In every reachable store, every stored block
whose predecessor-by-number is also stored carries the hash of that
predecessor as its parent hash, and the invariant still holds after any
reorg reconciliation step. -/
theorem C4_contiguity (s : Store) (h : Reachable s) :
    (∀ b ∈ s.blocks, ∀ c ∈ s.blocks,
      b.number = c.number + 1 → b.parentHash = c.hash)
    ∧ ∀ (remote : Nat → String) (lb : Nat),
        ∀ b ∈ (step s (EAction.reconcile remote lb)).blocks,
        ∀ c ∈ (step s (EAction.reconcile remote lb)).blocks,
          b.number = c.number + 1 → b.parentHash = c.hash := by
  refine ⟨(storeInv_reachable h).contig, ?_⟩
  intro remote lb
  exact (storeInv_step (storeInv_reachable h)
    (EAction.reconcile remote lb)).contig

/-- Witness for C4: the concrete 1..10 store, before and after the reorg
reconciliation against the diverged Chain Source. -/
theorem C4_witness :
    Reachable demoStore
    ∧ ((∀ b ∈ demoStore.blocks, ∀ c ∈ demoStore.blocks,
        b.number = c.number + 1 → b.parentHash = c.hash)
      ∧ ∀ (remote : Nat → String) (lb : Nat),
          ∀ b ∈ (step demoStore (EAction.reconcile remote lb)).blocks,
          ∀ c ∈ (step demoStore (EAction.reconcile remote lb)).blocks,
            b.number = c.number + 1 → b.parentHash = c.hash) := by
  have hr : Reachable demoStore :=
    Reachable.next
      (Reachable.next Reachable.init (EAction.applyBatch demoBlocks1 [demoMint]))
      (EAction.applyBatch demoBlocks2 [demoTransfer, demoBurn])
  exact ⟨hr, C4_contiguity demoStore hr⟩

/-- Claim C5: reorg reconciliation. When the backward walk from the
checkpoint finds a fork point (a block whose local hash equals the freshly
fetched one), the reconciliation step rewinds the checkpoint to it,
deletes exactly the blocks and transfers strictly after it, leaves the
hourly aggregates equal to a replay of the surviving ledger, leaves every
balance equal to the signed sum of the surviving transfers, and any
subsequent successful apply of the new fork again yields balances equal to
the signed sum of surviving plus new transfers, so the orphaned fork is
never double counted. -/
theorem C5_reorg_reconciliation (s : Store) (h : Reachable s)
    (remote : Nat → String) (lb f : Nat)
    (hf : findFork s remote lb = some f) :
    f ≤ s.checkpoint
    ∧ (∃ b, lookupBlock s.blocks f = some b ∧ b.hash = remote f)
    ∧ (step s (EAction.reconcile remote lb)).checkpoint = f
    ∧ (step s (EAction.reconcile remote lb)).blocks
        = s.blocks.filter (fun b => decide (b.number ≤ f))
    ∧ (step s (EAction.reconcile remote lb)).transfers
        = s.transfers.filter (fun t => decide (t.blockNumber ≤ f))
    ∧ (step s (EAction.reconcile remote lb)).hourly
        = hourlyOf (blockTs (step s (EAction.reconcile remote lb)).blocks)
            (step s (EAction.reconcile remote lb)).transfers
    ∧ (∀ k, getBal (step s (EAction.reconcile remote lb)).balances k
        = signedSum (step s (EAction.reconcile remote lb)).transfers k)
    ∧ ∀ (bs : List BlockRecord) (es : List TransferEvent) (s2 : Store),
        applyBatch (step s (EAction.reconcile remote lb)) bs es
          = Except.ok s2 →
        ∀ k, getBal s2.balances k = signedSum s2.transfers k := by
  obtain ⟨hle, hb⟩ := findFork_some hf
  have hinv2 : StoreInv (step s (EAction.reconcile remote lb)) :=
    storeInv_step (storeInv_reachable h) (EAction.reconcile remote lb)
  refine ⟨hle, hb, ?_, ?_, ?_, hinv2.hourlyInv, hinv2.balInv, ?_⟩
  · rw [step_reconcile_some hf]
    rfl
  · rw [step_reconcile_some hf]
    rfl
  · rw [step_reconcile_some hf]
    rfl
  · intro bs es s2 h2
    exact (storeInv_applyBatch hinv2 h2).balInv

/-- Witness for C5: the reorg scenario of section 8 of the spec. Blocks
1..10 are stored, the Chain Source reports different hashes for 8..10, and
the fork point is found at 7. -/
theorem C5_witness :
    Reachable demoStore
    ∧ findFork demoStore demoRemote 10 = some 7
    ∧ (7 ≤ demoStore.checkpoint
      ∧ (∃ b, lookupBlock demoStore.blocks 7 = some b ∧ b.hash = demoRemote 7)
      ∧ (step demoStore (EAction.reconcile demoRemote 10)).checkpoint = 7
      ∧ (step demoStore (EAction.reconcile demoRemote 10)).blocks
          = demoStore.blocks.filter (fun b => decide (b.number ≤ 7))
      ∧ (step demoStore (EAction.reconcile demoRemote 10)).transfers
          = demoStore.transfers.filter (fun t => decide (t.blockNumber ≤ 7))
      ∧ (step demoStore (EAction.reconcile demoRemote 10)).hourly
          = hourlyOf
              (blockTs (step demoStore (EAction.reconcile demoRemote 10)).blocks)
              (step demoStore (EAction.reconcile demoRemote 10)).transfers
      ∧ (∀ k, getBal (step demoStore (EAction.reconcile demoRemote 10)).balances k
          = signedSum (step demoStore (EAction.reconcile demoRemote 10)).transfers k)
      ∧ ∀ (bs : List BlockRecord) (es : List TransferEvent) (s2 : Store),
          applyBatch (step demoStore (EAction.reconcile demoRemote 10)) bs es
            = Except.ok s2 →
          ∀ k, getBal s2.balances k = signedSum s2.transfers k) := by
  have hr : Reachable demoStore :=
    Reachable.next
      (Reachable.next Reachable.init (EAction.applyBatch demoBlocks1 [demoMint]))
      (EAction.applyBatch demoBlocks2 [demoTransfer, demoBurn])
  exact ⟨hr, by decide,
    C5_reorg_reconciliation demoStore hr demoRemote 10 7 (by decide)⟩

/-- Claim C6: in every reachable store every committed balance is a
non-negative integer; an event with a debit side whose amount exceeds the
current balance of the sender is rejected as a negative-balance
data-integrity error rather than clamped; and a failed batch apply commits
nothing, leaving the store unchanged. -/
theorem C6_negative_balance_guard (s : Store) (h : Reachable s) :
    (∀ k, 0 ≤ getBal s.balances k)
    ∧ (∀ (tsOf : Nat → Nat) (u : Store) (e : TransferEvent),
        hasKey u.transfers e = false →
        e.eventType ≠ EventKind.mint →
        getBal u.balances (e.fromAddress, e.tokenAddress) < (e.amount : Int) →
        applyEvent tsOf u e = Except.error LedgerError.negativeBalance)
    ∧ (∀ (bs : List BlockRecord) (es : List TransferEvent) (err : LedgerError),
        applyBatch s bs es = Except.error err →
        step s (EAction.applyBatch bs es) = s) := by
  refine ⟨?_, ?_, ?_⟩
  · intro k
    have hinv := storeInv_reachable h
    have hn := GuardedList_nonneg s.transfers (fun _ => 0) hinv.guarded
      (fun _ => le_refl 0) k
    rw [hinv.balInv k]
    simpa using hn
  · intro tsOf u e hk hm hlt
    exact applyEvent_neg hk hm hlt
  · intro bs es err hb
    exact step_applyBatch_err hb

/-- Witness for C6 at the concrete scenario store. -/
theorem C6_witness :
    Reachable demoStore
    ∧ ((∀ k, 0 ≤ getBal demoStore.balances k)
      ∧ (∀ (tsOf : Nat → Nat) (u : Store) (e : TransferEvent),
          hasKey u.transfers e = false →
          e.eventType ≠ EventKind.mint →
          getBal u.balances (e.fromAddress, e.tokenAddress) < (e.amount : Int) →
          applyEvent tsOf u e = Except.error LedgerError.negativeBalance)
      ∧ (∀ (bs : List BlockRecord) (es : List TransferEvent) (err : LedgerError),
          applyBatch demoStore bs es = Except.error err →
          step demoStore (EAction.applyBatch bs es) = demoStore)) := by
  have hr : Reachable demoStore :=
    Reachable.next
      (Reachable.next Reachable.init (EAction.applyBatch demoBlocks1 [demoMint]))
      (EAction.applyBatch demoBlocks2 [demoTransfer, demoBurn])
  exact ⟨hr, C6_negative_balance_guard demoStore hr⟩

/-- Claim C7: across every engine step the checkpoint never decreases
except for the explicit rewind of reorg reconciliation, and a successful
batch apply advances it to the end of the range in the same result that
carries the new blocks and transfers (checkpoint advance and commit are
one unit). -/
theorem C7_checkpoint_monotone (s : Store) :
    (∀ (bs : List BlockRecord) (es : List TransferEvent),
      s.checkpoint ≤ (step s (EAction.applyBatch bs es)).checkpoint)
    ∧ (∀ (bs : List BlockRecord) (es : List TransferEvent) (s2 : Store),
        applyBatch s bs es = Except.ok s2 → bs ≠ [] →
        s2.checkpoint = s.checkpoint + bs.length
        ∧ s2.blocks = s.blocks ++ bs
        ∧ s.transfers <+: s2.transfers)
    ∧ (∀ (remote : Nat → String) (lb : Nat),
        (step s (EAction.reconcile remote lb)).checkpoint ≤ s.checkpoint) := by
  refine ⟨?_, ?_, ?_⟩
  · intro bs es
    cases hb : applyBatch s bs es with
    | error err =>
        rw [step_applyBatch_err hb]
    | ok s2 =>
        rw [step_applyBatch_ok hb]
        rcases applyBatch_elim hb with ⟨_, rfl⟩ | ⟨hne, hch, hev, s3, h2, rfl⟩
        · exact le_refl _
        · show s.checkpoint ≤ s.checkpoint + bs.length
          omega
  · intro bs es s2 hb hne
    rcases applyBatch_elim hb with ⟨hbs, _⟩ | ⟨_, hch, hev, s3, h2, rfl⟩
    · exact absurd hbs hne
    · obtain ⟨hb3, hc3, hp3⟩ := applyEvents_frame h2
      refine ⟨rfl, ?_, hp3⟩
      show s3.blocks = s.blocks ++ bs
      rw [hb3]
  · intro remote lb
    cases hf : findFork s remote lb with
    | some f =>
        rw [step_reconcile_some hf]
        exact (findFork_some hf).1
    | none =>
        rw [step_reconcile_none hf]

/-- Witness for C7 at the concrete scenario store. -/
theorem C7_witness :
    (∀ (bs : List BlockRecord) (es : List TransferEvent),
      demoStore.checkpoint
        ≤ (step demoStore (EAction.applyBatch bs es)).checkpoint)
    ∧ (∀ (bs : List BlockRecord) (es : List TransferEvent) (s2 : Store),
        applyBatch demoStore bs es = Except.ok s2 → bs ≠ [] →
        s2.checkpoint = demoStore.checkpoint + bs.length
        ∧ s2.blocks = demoStore.blocks ++ bs
        ∧ demoStore.transfers <+: s2.transfers)
    ∧ (∀ (remote : Nat → String) (lb : Nat),
        (step demoStore (EAction.reconcile remote lb)).checkpoint
          ≤ demoStore.checkpoint) :=
  C7_checkpoint_monotone demoStore

/-- Claim C8: the durable layout created by migrations/001_init.sql has
exactly the tables indexed_blocks, tokens, transfers, accounts,
hourly_stats and indexer_state, with the unique constraint on
(transaction_hash, log_index) on transfers, primary key
(address, token_address) on accounts, primary key (token_address, hour) on
hourly_stats, a key/value indexer_state, and the seed row
last_indexed_block = 0 (also the initial checkpoint of the model). -/
theorem C8_schema_layout :
    initSchema.map (fun t => t.name)
      = ["indexed_blocks", "tokens", "transfers", "accounts",
         "hourly_stats", "indexer_state"]
    ∧ transfers.uniques = [["transaction_hash", "log_index"]]
    ∧ accounts.primaryKey = ["address", "token_address"]
    ∧ hourly_stats.primaryKey = ["token_address", "hour"]
    ∧ indexer_state.columns = ["key", "value"]
    ∧ indexer_state.primaryKey = ["key"]
    ∧ indexerStateSeed = [("last_indexed_block", "0")]
    ∧ initStore.checkpoint = 0 :=
  ⟨rfl, rfl, rfl, rfl, rfl, rfl, rfl, rfl⟩

/-- Counterexample to claim C9 as stated: the dashboard transfer-volume
computation converts amounts with the JavaScript Number function, i.e.
binary64 floating point, so on the valid decimal amount 2 ^ 53 + 1 it
differs from exact arbitrary-precision arithmetic. -/
theorem C9_counterexample :
    decToNat "9007199254740993" = 9007199254740993
    ∧ jsTransferVolume ["9007199254740993"] = 9007199254740992
    ∧ jsTransferVolume ["9007199254740993"]
        ≠ exactVolume ["9007199254740993"] := by
  refine ⟨by decide, by decide, by decide⟩

theorem float64OfNat_eq_self {n : Nat} (h : n ≤ 2 ^ 53) :
    float64OfNat n = n := by
  unfold float64OfNat
  rw [if_pos h]

theorem exactFold_sum :
    ∀ (l : List String) (acc : Nat),
      l.foldl (fun sum a => sum + decToNat a) acc
        = acc + (l.map decToNat).sum := by
  intro l
  induction l with
  | nil => intro acc; simp
  | cons a rest ih =>
      intro acc
      simp only [List.foldl_cons, List.map_cons, List.sum_cons]
      rw [ih]
      omega

theorem jsFold_exact :
    ∀ (l : List String) (acc : Nat),
      acc + (l.map decToNat).sum ≤ 2 ^ 53 →
      l.foldl (fun sum a => float64OfNat (sum + jsNumberOfDecimal a)) acc
        = l.foldl (fun sum a => sum + decToNat a) acc := by
  intro l
  induction l with
  | nil => intro acc _; rfl
  | cons a rest ih =>
      intro acc hb
      simp only [List.map_cons, List.sum_cons] at hb
      simp only [List.foldl_cons]
      have h1 : jsNumberOfDecimal a = decToNat a :=
        float64OfNat_eq_self (by omega)
      rw [h1, float64OfNat_eq_self (by omega)]
      exact ih _ (by omega)

/-- Claim C9 (amended): the durable layer and the REST responses encode
amounts as exact decimal strings, but the dashboard converts them with
JavaScript Number, i.e. binary64 floating point; that conversion and the
float reduce over it agree with exact arithmetic precisely when the exact
total stays at or below 2 ^ 53. -/
theorem C9_amounts_exact_below_2pow53 (amounts : List String)
    (h : exactVolume amounts ≤ 2 ^ 53) :
    jsTransferVolume amounts = exactVolume amounts := by
  have hs := exactFold_sum amounts 0
  unfold exactVolume at h ⊢
  unfold jsTransferVolume
  refine jsFold_exact amounts 0 ?_
  omega

/-- Witness for the amended C9 on realistic stablecoin amounts. -/
theorem C9_witness :
    exactVolume ["5000000000", "30"] ≤ 2 ^ 53
    ∧ jsTransferVolume ["5000000000", "30"]
        = exactVolume ["5000000000", "30"] :=
  ⟨by decide, C9_amounts_exact_below_2pow53 ["5000000000", "30"] (by decide)⟩

/-- Claim C10: every server-side fetcher returns null exactly when the
underlying request failed (it never lets the error propagate), and the
composite fetchers are all-or-nothing: they return null if and only if at
least one constituent fetch returned null, and otherwise a record whose
every field holds the corresponding fetched value. -/
theorem C10_fetchers_null_composition :
    (∀ r : Except String (List ApiToken),
      fetchTokens r = none ↔ ∃ e, r = Except.error e)
    ∧ (∀ r : Except String ApiToken,
      fetchToken r = none ↔ ∃ e, r = Except.error e)
    ∧ (∀ r : Except String (List ApiAccount),
      fetchTokenHolders r = none ↔ ∃ e, r = Except.error e)
    ∧ (∀ r : Except String (List ApiTransfer),
      fetchTokenTransfers r = none ↔ ∃ e, r = Except.error e)
    ∧ (∀ (r1 : Except String (List ApiToken))
        (r2 : Except String OverviewResponse)
        (r3 : Except String (List ApiTransfer))
        (r4 : Except String (List TimeSeriesEntry))
        (r5 : Except String (List TimeSeriesEntry))
        (r6 : Except String VolumeResponse),
        fetchDashboardData r1 r2 r3 r4 r5 r6 = none ↔
          (fetchTokens r1 = none ∨ fetchOverview r2 = none
            ∨ fetchRecentActivity r3 = none ∨ fetchDailyVolume r4 = none
            ∨ fetchMonthlyVolume r5 = none ∨ fetchVolume r6 = none))
    ∧ (∀ (r1 : Except String (List ApiToken))
        (r2 : Except String OverviewResponse)
        (r3 : Except String (List ApiTransfer))
        (r4 : Except String (List TimeSeriesEntry))
        (r5 : Except String (List TimeSeriesEntry))
        (r6 : Except String VolumeResponse)
        (t : List ApiToken) (o : OverviewResponse) (a : List ApiTransfer)
        (d m : List TimeSeriesEntry) (v : VolumeResponse),
        fetchTokens r1 = some t → fetchOverview r2 = some o →
        fetchRecentActivity r3 = some a → fetchDailyVolume r4 = some d →
        fetchMonthlyVolume r5 = some m → fetchVolume r6 = some v →
        fetchDashboardData r1 r2 r3 r4 r5 r6
          = some { tokens := t, overview := o, activity := a
                   daily := d, monthly := m, volume := v })
    ∧ (∀ (q1 : Except String ApiToken)
        (q2 : Except String (List ApiAccount))
        (q3 : Except String (List ApiTransfer))
        (q4 : Except String (List TimeSeriesEntry)),
        fetchTokenDetailData q1 q2 q3 q4 = none ↔
          (fetchToken q1 = none ∨ fetchTokenHolders q2 = none
            ∨ fetchTokenTransfers q3 = none ∨ fetchTokenDailyVolume q4 = none))
    ∧ (∀ (q1 : Except String ApiToken)
        (q2 : Except String (List ApiAccount))
        (q3 : Except String (List ApiTransfer))
        (q4 : Except String (List TimeSeriesEntry))
        (t : ApiToken) (hl : List ApiAccount) (tr : List ApiTransfer)
        (d : List TimeSeriesEntry),
        fetchToken q1 = some t → fetchTokenHolders q2 = some hl →
        fetchTokenTransfers q3 = some tr → fetchTokenDailyVolume q4 = some d →
        fetchTokenDetailData q1 q2 q3 q4
          = some { token := t, holders := hl, transfers := tr
                   dailyVolume := d }) := by
  refine ⟨?_, ?_, ?_, ?_, ?_, ?_, ?_, ?_⟩
  · intro r
    cases r <;> simp [fetchTokens, fetchResult]
  · intro r
    cases r <;> simp [fetchToken, fetchResult]
  · intro r
    cases r <;> simp [fetchTokenHolders, fetchResult]
  · intro r
    cases r <;> simp [fetchTokenTransfers, fetchResult]
  · intro r1 r2 r3 r4 r5 r6
    unfold fetchDashboardData
    cases fetchTokens r1 <;> cases fetchOverview r2 <;>
      cases fetchRecentActivity r3 <;> cases fetchDailyVolume r4 <;>
      cases fetchMonthlyVolume r5 <;> cases fetchVolume r6 <;> simp
  · intro r1 r2 r3 r4 r5 r6 t o a d m v h1 h2 h3 h4 h5 h6
    unfold fetchDashboardData
    rw [h1, h2, h3, h4, h5, h6]
  · intro q1 q2 q3 q4
    unfold fetchTokenDetailData
    cases fetchToken q1 <;> cases fetchTokenHolders q2 <;>
      cases fetchTokenTransfers q3 <;> cases fetchTokenDailyVolume q4 <;> simp
  · intro q1 q2 q3 q4 t hl tr d h1 h2 h3 h4
    unfold fetchTokenDetailData
    rw [h1, h2, h3, h4]

/-- Witness for C10: one failed constituent fetch makes the composite
dashboard fetch return null. -/
theorem C10_witness :
    fetchDashboardData (Except.error "connection refused")
      (Except.ok { total_value_transferred := "0", total_transfers := 0
                   active_tokens := 0 })
      (Except.ok []) (Except.ok []) (Except.ok [])
      (Except.ok { tokens := [] }) = none := by
  refine (C10_fetchers_null_composition.2.2.2.2.1 _ _ _ _ _ _).mpr ?_
  exact Or.inl (by simp [fetchTokens, fetchResult])
